import Mathlib

/-!
Verification development for the `undifferent` repository: a line-alignment
and highlighting engine for comparing documents (with UN-resolution support
glue around it).  Strings are modelled as `List Char`, machine numbers as
`Nat`/`ℚ`.  The core diff module is modelled from the specification; the
UN-fetcher line processing, the symbol parser and the API route handler are
translated from the repository sources.
-/

set_option maxHeartbeats 1000000

attribute [local semireducible] Rat.add Rat.sub Rat.mul Rat.inv

deriving instance DecidableEq for Except

namespace Undifferent

/-- Whitespace predicate for line trimming (a representative subset of the
JavaScript `String.prototype.trim` character class). -/
def isWS (c : Char) : Bool :=
  c = ' ' || c = '\t' || c = '\n' || c = '\r'

/-- Remove leading whitespace characters (front half of `trim`). -/
def trimLeft : List Char → List Char
  | [] => []
  | c :: t => if isWS c then trimLeft t else c :: t

/-- Remove trailing whitespace characters (back half of `trim`). -/
def trimRight : List Char → List Char
  | [] => []
  | c :: t =>
    match trimRight t with
    | [] => if isWS c then [] else [c]
    | x :: r => c :: x :: r

/-- JavaScript `line.trim()`: remove leading and trailing whitespace. -/
def trim (l : List Char) : List Char := trimRight (trimLeft l)

/-- JavaScript `text.split('\n')` on a character list. -/
def splitNL : List Char → List (List Char)
  | [] => [[]]
  | c :: t =>
    if c = '\n' then [] :: splitNL t
    else
      match splitNL t with
      | [] => [[c]]
      | l :: ls => (c :: l) :: ls

/-- Numeric value of a digit string, as JavaScript `parseInt` on an
all-digit match. -/
def digitsToNat (l : List Char) : Nat :=
  l.foldl (fun n c => 10 * n + (c.toNat - 48)) 0

/-- Fuel-driven form of the edit-distance recurrence; the fuel only serves to
make the recursion structural, and is irrelevant once it covers the combined
length of the two strings. -/
def levFuel : Nat → List Char → List Char → Nat
  | _, [], ys => ys.length
  | _, xs, [] => xs.length
  | 0, _, _ => 0
  | n + 1, x :: xs, y :: ys =>
    if x = y then levFuel n xs ys
    else 1 + min (levFuel n xs ys) (min (levFuel n (x :: xs) ys) (levFuel n xs (y :: ys)))

/-- Modelled from the spec (§4.1, `src/core` is absent from the snapshot):
unit-cost insert/delete/substitute edit distance between two strings. -/
def levenshtein (a b : List Char) : Nat :=
  levFuel (a.length + b.length) a b

/-- Modelled from the spec (§4.1): similarity ratio
`1 - distance / max(len a, len b)`, with the identical-empty case equal to 1. -/
def similarity (a b : List Char) : ℚ :=
  if a = [] ∧ b = [] then 1
  else 1 - (levenshtein a b : ℚ) / ((max a.length b.length : Nat) : ℚ)

/-- Modelled from the spec (§4.3): a single character-level edit operation of
the minimal-edit alignment underlying the highlighter. -/
inductive EditOp where
  | keep (c : Char)
  | del (c : Char)
  | ins (c : Char)
deriving DecidableEq

/-- Fuel-driven form of the edit-script construction; the fuel only makes the
recursion structural. -/
def esFuel : Nat → List Char → List Char → List EditOp
  | _, [], ys => ys.map EditOp.ins
  | _, xs, [] => xs.map EditOp.del
  | 0, _, _ => []
  | n + 1, x :: xs, y :: ys =>
    if x = y then EditOp.keep x :: esFuel n xs ys
    else if levenshtein xs (y :: ys) ≤ levenshtein xs ys ∧
        levenshtein xs (y :: ys) ≤ levenshtein (x :: xs) ys then
      EditOp.del x :: esFuel n xs (y :: ys)
    else if levenshtein (x :: xs) ys ≤ levenshtein xs ys then
      EditOp.ins y :: esFuel n (x :: xs) ys
    else
      EditOp.del x :: EditOp.ins y :: esFuel n xs ys

/-- Modelled from the spec (§4.3): a minimal-cost character-level edit script
between two strings, preferring deletion, then insertion, then
keep-as-substitution on cost ties. -/
def editScript (a b : List Char) : List EditOp :=
  esFuel (a.length + b.length) a b

/-- The left-hand string recovered from an edit script (kept and deleted
characters, in order). -/
def leftOf : List EditOp → List Char
  | [] => []
  | EditOp.keep c :: rest => c :: leftOf rest
  | EditOp.del c :: rest => c :: leftOf rest
  | EditOp.ins _ :: rest => leftOf rest

/-- The right-hand string recovered from an edit script (kept and inserted
characters, in order). -/
def rightOf : List EditOp → List Char
  | [] => []
  | EditOp.keep c :: rest => c :: rightOf rest
  | EditOp.del _ :: rest => rightOf rest
  | EditOp.ins c :: rest => c :: rightOf rest

/-- Modelled from the spec (§4.3/§6): render the left side of the markup,
wrapping runs of removed characters in double-tilde delimiters.  The boolean
state records whether a removal span is currently open. -/
def renderLeft : Bool → List EditOp → List Char
  | true, [] => ['~', '~']
  | false, [] => []
  | inDel, EditOp.del c :: rest =>
    (if inDel then [] else ['~', '~']) ++ c :: renderLeft true rest
  | inDel, EditOp.keep c :: rest =>
    (if inDel then ['~', '~'] else []) ++ c :: renderLeft false rest
  | inDel, EditOp.ins _ :: rest => renderLeft inDel rest

/-- Modelled from the spec (§4.3/§6): render the right side of the markup,
wrapping runs of added characters in double-asterisk delimiters. -/
def renderRight : Bool → List EditOp → List Char
  | true, [] => ['*', '*']
  | false, [] => []
  | inIns, EditOp.ins c :: rest =>
    (if inIns then [] else ['*', '*']) ++ c :: renderRight true rest
  | inIns, EditOp.keep c :: rest =>
    (if inIns then ['*', '*'] else []) ++ c :: renderRight false rest
  | inIns, EditOp.del _ :: rest => renderRight inIns rest

/-- Modelled from the spec (§6): `highlight(a, b)` returns the marked-up left
and right strings. -/
def highlight (a b : List Char) : List Char × List Char :=
  (renderLeft false (editScript a b), renderRight false (editScript a b))

/-- Remove every occurrence of the two-character markers `~~` and `**` from a
string (the marker-stripping operation of the round-trip property). -/
def stripMarks : List Char → List Char
  | [] => []
  | [c] => [c]
  | c :: d :: rest =>
    if (c = '~' ∧ d = '~') ∨ (c = '*' ∧ d = '*') then stripMarks rest
    else c :: stripMarks (d :: rest)

/-- A string free of the marker delimiter characters. -/
def CleanStr (l : List Char) : Prop := ∀ c ∈ l, c ≠ '~' ∧ c ≠ '*'

instance (l : List Char) : Decidable (CleanStr l) := by
  unfold CleanStr
  infer_instance

/-- Modelled from the spec (§3): classification of a diff item. -/
inductive DiffItemKind where
  | Aligned
  | Added
  | Removed
  | Moved
deriving DecidableEq

/-- Modelled from the spec (§3): one structured diff item. -/
structure DiffItem where
  kind : DiffItemKind
  leftText : Option (List Char)
  rightText : Option (List Char)
  leftIndex : Option Nat
  rightIndex : Option Nat
  similarity : Option ℚ
  highlightedLeft : Option (List Char)
  highlightedRight : Option (List Char)
deriving DecidableEq

/-- Modelled from the spec (§3): the structured diff result. -/
structure DiffResult where
  score : ℚ
  items : List DiffItem
deriving DecidableEq

/-- Modelled from the spec (§7): the only error the core raises. -/
inductive DiffError where
  | invalidArgument
deriving DecidableEq

/-- A `Removed` item for a left line with no qualifying match. -/
def removedItem (line : List Char) (li : Nat) : DiffItem :=
  { kind := DiffItemKind.Removed, leftText := some line, rightText := none,
    leftIndex := some li, rightIndex := none, similarity := none,
    highlightedLeft := none, highlightedRight := none }

/-- An `Added` item for a right line never consumed by a match. -/
def addedItem (line : List Char) (ri : Nat) : DiffItem :=
  { kind := DiffItemKind.Added, leftText := none, rightText := some line,
    leftIndex := none, rightIndex := some ri, similarity := none,
    highlightedLeft := none, highlightedRight := none }

/-- A matched (`Aligned` or `Moved`) item for a qualifying line pair. -/
def matchedItem (k : DiffItemKind) (line : List Char) (li : Nat)
    (rline : List Char) (ri : Nat) (s : ℚ) : DiffItem :=
  { kind := k, leftText := some line, rightText := some rline,
    leftIndex := some li, rightIndex := some ri, similarity := some s,
    highlightedLeft := none, highlightedRight := none }

/-- Modelled from the spec (§4.2 step 1 tie-breaking): candidate `p` strictly
beats candidate `q` when its similarity is higher, or equal with a smaller
absolute index distance from the left position. -/
def betterCand (li : Nat) (line : List Char) (p q : Nat × List Char) : Bool :=
  decide (similarity line q.2 < similarity line p.2) ||
    (decide (similarity line p.2 = similarity line q.2) &&
      decide (Nat.dist p.1 li < Nat.dist q.1 li))

/-- Fold of the best-candidate search over the unconsumed right lines, kept in
increasing right-index order so that equal (similarity, distance) keeps the
smallest right index. -/
def pickBestAux (t : ℚ) (li : Nat) (line : List Char) :
    Option (Nat × List Char) → List (Nat × List Char) → Option (Nat × List Char)
  | best, [] => best
  | best, p :: rest =>
    if t ≤ similarity line p.2 then
      match best with
      | none => pickBestAux t li line (some p) rest
      | some q =>
        pickBestAux t li line (some (if betterCand li line p q then p else q)) rest
    else pickBestAux t li line best rest

/-- Modelled from the spec (§4.2 step 1): best-scoring unconsumed right line
whose similarity reaches the threshold, if any. -/
def pickBest (t : ℚ) (li : Nat) (line : List Char)
    (remaining : List (Nat × List Char)) : Option (Nat × List Char) :=
  pickBestAux t li line none remaining

/-- Remove the first occurrence of a consumed right line from the unconsumed
pool. -/
def eraseFirst (p : Nat × List Char) : List (Nat × List Char) → List (Nat × List Char)
  | [] => []
  | q :: rest => if q = p then rest else q :: eraseFirst p rest

/-- Modelled from the spec (§4.2 steps 1-4): greedy left-to-right alignment.
Returns the matched/removed items in left order together with the right lines
never consumed.  `consumed` accumulates the right indices already matched. -/
def alignGo (t : ℚ) :
    Nat → List (List Char) → List (Nat × List Char) → List Nat →
      List DiffItem × List (Nat × List Char)
  | _, [], remaining, _ => ([], remaining)
  | li, line :: rest, remaining, consumed =>
    match pickBest t li line remaining with
    | none =>
      (removedItem line li :: (alignGo t (li + 1) rest remaining consumed).1,
        (alignGo t (li + 1) rest remaining consumed).2)
    | some p =>
      (matchedItem
          (if consumed.any (fun c => decide (p.1 < c)) then DiffItemKind.Moved
            else DiffItemKind.Aligned)
          line li p.2 p.1 (similarity line p.2) ::
          (alignGo t (li + 1) rest (eraseFirst p remaining) (p.1 :: consumed)).1,
        (alignGo t (li + 1) rest (eraseFirst p remaining) (p.1 :: consumed)).2)

/-- Modelled from the spec (§4.2 step 5): insert an `Added` item with right
index `j` before the first already-placed item whose right index exceeds `j`. -/
def insertAdded (it : DiffItem) (j : Nat) : List DiffItem → List DiffItem
  | [] => [it]
  | x :: rest =>
    match x.rightIndex with
    | some k => if j < k then it :: x :: rest else x :: insertAdded it j rest
    | none => x :: insertAdded it j rest

/-- Modelled from the spec (§4.4): attach highlight markup to a matched item
whose similarity is below 1. -/
def attachHighlight (it : DiffItem) : DiffItem :=
  match it.leftText, it.rightText, it.similarity with
  | some a, some b, some s =>
    if s < 1 then
      { it with
        highlightedLeft := some (renderLeft false (editScript a b))
        highlightedRight := some (renderRight false (editScript a b)) }
    else it
  | _, _, _ => it

/-- Modelled from the spec (§4.4): aggregate score, computed by a running
accumulation over the items; 1 when there are no items. -/
def scoreOf (items : List DiffItem) : ℚ :=
  if items.isEmpty then 1
  else (items.foldl (fun acc it => acc + it.similarity.getD 0) 0) / (items.length : ℚ)

/-- Modelled from the spec (§4.2/§4.4): the full diff pipeline at a validated
threshold: greedy alignment, `Added` insertion, highlight attachment, score. -/
def diffCore (L R : List (List Char)) (t : ℚ) : DiffResult :=
  let phase1 := alignGo t 0 L R.enum []
  let items0 := phase1.2.foldl (fun acc p => insertAdded (addedItem p.2 p.1) p.1 acc) phase1.1
  let items := items0.map attachHighlight
  { score := scoreOf items, items := items }

/-- Modelled from the spec (§4.4/§7): public entry point; the threshold
defaults to 0.8 and is rejected with `InvalidArgument` outside `[0,1]`. -/
def diff (L R : List (List Char)) (opts : Option ℚ) : Except DiffError DiffResult :=
  match opts with
  | some t =>
    if t < 0 ∨ 1 < t then Except.error DiffError.invalidArgument
    else Except.ok (diffCore L R t)
  | none => Except.ok (diffCore L R ((4 : ℚ) / 5))

/-- An item carrying both a left and a right side (a matched pair). -/
def bothSided (it : DiffItem) : Bool :=
  it.leftText.isSome && it.rightText.isSome

/-- From src (un-fetcher): the document format actually fetched. -/
inductive DocFormat where
  | doc
  | pdf
deriving DecidableEq

/-- From src (un-fetcher): a fetched UN document. -/
structure UNDocument where
  symbol : List Char
  text : List Char
  lines : List (List Char)
  lineCount : Nat
  format : DocFormat
deriving DecidableEq

/-- From src (un-fetcher): recorded vote counts of a resolution. -/
structure VoteInfo where
  inFavour : Nat
  against : Nat
  abstaining : Nat
deriving DecidableEq

/-- From src (un-fetcher): bibliographic metadata of a document. -/
structure UNDocumentMetadata where
  symbol : List Char
  title : List Char
  date : Option (List Char)
  year : Option Nat
  subjects : List (List Char)
  vote : Option VoteInfo
  agendaInfo : Option (List Char)
deriving DecidableEq

/-- From src (`extractWordDocument`): the word-extractor body text is
abstracted as the `text` argument (binary .doc parsing is an external
library); the line processing `split('\n').map(trim).filter(line)` is
translated exactly. -/
def extractWordDocument (symbol text : List Char) : UNDocument :=
  let lines := ((splitNL text).map trim).filter (fun l => !l.isEmpty)
  { symbol := symbol, text := text, lines := lines,
    lineCount := lines.length, format := DocFormat.doc }

/-- From src (`extractPdfDocument`): the unpdf extraction and the regex
segmentation passes are abstracted as the already-processed `processedText`
argument; the line processing
`split('\n').map(trim).filter(line && line.length > 15)` is translated
exactly. -/
def extractPdfDocument (symbol processedText : List Char) : UNDocument :=
  let lines := ((splitNL processedText).map trim).filter
    (fun l => !l.isEmpty && decide (15 < l.length))
  { symbol := symbol, text := processedText, lines := lines,
    lineCount := lines.length, format := DocFormat.pdf }

/-- From src (`fetchUNDocument`): network access is abstracted; `docText` and
`pdfText` hold the successfully fetched body text of the respective format
(`none` when unavailable or when extraction failed).  DOC is tried first,
with PDF as the fallback; `none` overall models the thrown failure. -/
def fetchUNDocument (symbol : List Char) (docText pdfText : Option (List Char)) :
    Option UNDocument :=
  match docText with
  | some t => some (extractWordDocument symbol t)
  | none =>
    match pdfText with
    | some t => some (extractPdfDocument symbol t)
    | none => none

/-- From src (the POST /api/diff route): the successful response body. -/
structure DiffResponse where
  score : ℚ
  items : List DiffItem
  formats : DocFormat × DocFormat
  metadataLeft : UNDocumentMetadata
  metadataRight : UNDocumentMetadata
deriving DecidableEq

/-- From src (the POST /api/diff route handler): request parsing and the four
concurrent fetches are abstracted into already-fetched arguments; the handler
calls `diff(docA.lines, docB.lines)` with no options argument and serializes
`score` and `items` unchanged, attaching formats and metadata alongside. -/
def postDiff (docA docB : UNDocument) (metaA metaB : UNDocumentMetadata) :
    Except DiffError DiffResponse :=
  (diff docA.lines docB.lines none).map
    (fun r =>
      { score := r.score, items := r.items,
        formats := (docA.format, docB.format),
        metadataLeft := metaA, metadataRight := metaB })

/-- From src (`parser.ts`): classification of a parsed symbol. -/
inductive SymbolType where
  | resolution
  | document
  | unknown
deriving DecidableEq

/-- From src (`parser.ts`): the components of a UN document symbol. -/
structure ParsedSymbol where
  body : List Char
  session : Option Nat
  number : Option Nat
  type : SymbolType
deriving DecidableEq

/-- From src (`parser.ts`): the anchored regex
`^([A-Z])\/RES\/(\d+)\/(\d+)$`, returning the captured body letter and the
two digit groups. -/
def matchResolution (l : List Char) : Option (Char × Nat × Nat) :=
  match l with
  | b :: '/' :: 'R' :: 'E' :: 'S' :: '/' :: rest =>
    if b.isUpper then
      let d1 := rest.takeWhile Char.isDigit
      if d1 = [] then none
      else
        match rest.dropWhile Char.isDigit with
        | '/' :: r2 =>
          let d2 := r2.takeWhile Char.isDigit
          if d2 = [] then none
          else if r2.dropWhile Char.isDigit = [] then
            some (b, digitsToNat d1, digitsToNat d2)
          else none
        | _ => none
    else none
  | _ => none

/-- From src (`parser.ts`): the unanchored regex `^S\/RES\/(\d+)`. -/
def matchSCResolution (l : List Char) : Option Nat :=
  match l with
  | 'S' :: '/' :: 'R' :: 'E' :: 'S' :: '/' :: rest =>
    let d := rest.takeWhile Char.isDigit
    if d = [] then none else some (digitsToNat d)
  | _ => none

/-- From src (`parser.ts`): the unanchored regex
`^([A-Z](?:\/C\.\d+)?)\/(\d+)\/[A-Z]+\.(\d+)`; the optional committee group
never needs regex backtracking here because a digit can never start with
`C`. -/
def matchDocument (l : List Char) : Option (List Char × Nat × Nat) :=
  match l with
  | [] => none
  | b :: rest =>
    if b.isUpper then
      let br :=
        match rest with
        | '/' :: 'C' :: '.' :: r2 =>
          let ds := r2.takeWhile Char.isDigit
          if ds = [] then ([b], rest)
          else (b :: '/' :: 'C' :: '.' :: ds, r2.dropWhile Char.isDigit)
        | _ => ([b], rest)
      match br.2 with
      | '/' :: r4 =>
        let d1 := r4.takeWhile Char.isDigit
        if d1 = [] then none
        else
          match r4.dropWhile Char.isDigit with
          | '/' :: r5 =>
            let us := r5.takeWhile Char.isUpper
            if us = [] then none
            else
              match r5.dropWhile Char.isUpper with
              | '.' :: r6 =>
                let d2 := r6.takeWhile Char.isDigit
                if d2 = [] then none
                else some (br.1, digitsToNat d1, digitsToNat d2)
              | _ => none
          | _ => none
      | _ => none
    else none

/-- From src (`parseUNSymbol`): try the three patterns in order, with the
Security Council session hard-coded to `parseInt('0')` in the first pattern,
and fall back to the part before the first slash. -/
def parseUNSymbol (symbol : List Char) : ParsedSymbol :=
  match matchResolution symbol with
  | some (b, s, n) =>
    { body := [b], session := some (if b = 'S' then 0 else s),
      number := some n, type := SymbolType.resolution }
  | none =>
    match matchSCResolution symbol with
    | some n =>
      { body := ['S'], session := none, number := some n,
        type := SymbolType.resolution }
    | none =>
      match matchDocument symbol with
      | some (bd, s, n) =>
        { body := bd, session := some s, number := some n,
          type := SymbolType.document }
      | none =>
        { body := symbol.takeWhile (fun c => c ≠ '/'), session := none,
          number := none, type := SymbolType.unknown }

/-- From src (`extractYear`): session below 200 is treated as a GA session
number (year 1945 + session), above 1900 as a literal year, anything else as
unknown. -/
def extractYear (symbol : List Char) : Option Nat :=
  match (parseUNSymbol symbol).session with
  | some s =>
    if s < 200 then some (1945 + s)
    else if 1900 < s then some s
    else none
  | none => none

theorem levFuel_nil_left (n : Nat) (ys : List Char) : levFuel n [] ys = ys.length := by
  cases n <;> simp [levFuel]

theorem levFuel_nil_right (n : Nat) (xs : List Char) : levFuel n xs [] = xs.length := by
  cases xs <;> cases n <;> simp [levFuel]

theorem levFuel_cons (n : Nat) (x y : Char) (xs ys : List Char) :
    levFuel (n + 1) (x :: xs) (y :: ys) =
      if x = y then levFuel n xs ys
      else 1 + min (levFuel n xs ys) (min (levFuel n (x :: xs) ys) (levFuel n xs (y :: ys))) :=
  rfl

theorem levFuel_congr :
    ∀ (m n : Nat) (a b : List Char), a.length + b.length ≤ m → a.length + b.length ≤ n →
      levFuel m a b = levFuel n a b := by
  intro m
  induction m with
  | zero =>
    intro n a b hm _
    have ha : a = [] := by
      cases a with
      | nil => rfl
      | cons c t => simp at hm
    subst ha
    rw [levFuel_nil_left, levFuel_nil_left]
  | succ m ih =>
    intro n a b hm hn
    cases a with
    | nil => rw [levFuel_nil_left, levFuel_nil_left]
    | cons x xs =>
      cases b with
      | nil => rw [levFuel_nil_right, levFuel_nil_right]
      | cons y ys =>
        simp only [List.length_cons] at hm hn
        cases n with
        | zero => omega
        | succ n =>
          rw [levFuel_cons, levFuel_cons]
          have h1 : levFuel m xs ys = levFuel n xs ys := ih n xs ys (by omega) (by omega)
          have h2 : levFuel m (x :: xs) ys = levFuel n (x :: xs) ys := by
            apply ih n (x :: xs) ys <;> simp <;> omega
          have h3 : levFuel m xs (y :: ys) = levFuel n xs (y :: ys) := by
            apply ih n xs (y :: ys) <;> simp <;> omega
          rw [h1, h2, h3]

theorem levenshtein_nil_left (ys : List Char) : levenshtein [] ys = ys.length := by
  rw [levenshtein, levFuel_nil_left]

theorem levenshtein_nil_right (xs : List Char) : levenshtein xs [] = xs.length := by
  rw [levenshtein, levFuel_nil_right]

theorem levenshtein_cons (x y : Char) (xs ys : List Char) :
    levenshtein (x :: xs) (y :: ys) =
      if x = y then levenshtein xs ys
      else 1 + min (levenshtein xs ys)
        (min (levenshtein (x :: xs) ys) (levenshtein xs (y :: ys))) := by
  have hlen : (x :: xs).length + (y :: ys).length = xs.length + ys.length + 1 + 1 := by
    simp
    omega
  rw [levenshtein, hlen, levFuel_cons]
  have h1 : levFuel (xs.length + ys.length + 1) xs ys = levenshtein xs ys := by
    rw [levenshtein]
    apply levFuel_congr <;> omega
  have h2 : levFuel (xs.length + ys.length + 1) (x :: xs) ys = levenshtein (x :: xs) ys := by
    rw [levenshtein]
    apply levFuel_congr <;> simp <;> omega
  have h3 : levFuel (xs.length + ys.length + 1) xs (y :: ys) = levenshtein xs (y :: ys) := by
    rw [levenshtein]
    apply levFuel_congr <;> simp <;> omega
  rw [h1, h2, h3]

theorem levenshtein_le_max :
    ∀ (a b : List Char), levenshtein a b ≤ max a.length b.length := by
  intro a b
  generalize h : a.length + b.length = n
  induction n using Nat.strong_induction_on generalizing a b with
  | _ n ih =>
    cases a with
    | nil => rw [levenshtein_nil_left]; simp
    | cons x xs =>
      cases b with
      | nil => rw [levenshtein_nil_right]; simp
      | cons y ys =>
        rw [levenshtein_cons]
        have h1 : levenshtein xs ys ≤ max xs.length ys.length := by
          apply ih (xs.length + ys.length) _ xs ys rfl
          simp at h
          omega
        by_cases hxy : x = y
        · simp only [hxy, if_pos rfl]
          refine le_trans h1 ?_
          simp
          omega
        · rw [if_neg hxy]
          have : min (levenshtein xs ys)
              (min (levenshtein (x :: xs) ys) (levenshtein xs (y :: ys))) ≤
              levenshtein xs ys := min_le_left _ _
          simp only [List.length_cons]
          omega

theorem levenshtein_comm :
    ∀ (a b : List Char), levenshtein a b = levenshtein b a := by
  intro a b
  generalize h : a.length + b.length = n
  induction n using Nat.strong_induction_on generalizing a b with
  | _ n ih =>
    cases a with
    | nil => rw [levenshtein_nil_left, levenshtein_nil_right]
    | cons x xs =>
      cases b with
      | nil => rw [levenshtein_nil_left, levenshtein_nil_right]
      | cons y ys =>
        rw [levenshtein_cons, levenshtein_cons]
        simp only [List.length_cons] at h
        have h1 : levenshtein xs ys = levenshtein ys xs :=
          ih (xs.length + ys.length) (by omega) xs ys rfl
        have h2 : levenshtein (x :: xs) ys = levenshtein ys (x :: xs) :=
          ih ((x :: xs).length + ys.length) (by simp; omega) (x :: xs) ys rfl
        have h3 : levenshtein xs (y :: ys) = levenshtein (y :: ys) xs :=
          ih (xs.length + (y :: ys).length) (by simp; omega) xs (y :: ys) rfl
        by_cases hxy : x = y
        · subst hxy
          simp [h1]
        · have hyx : ¬ y = x := fun hc => hxy hc.symm
          rw [if_neg hxy, if_neg hyx, h1, h2, h3, Nat.min_comm (levenshtein (y :: ys) xs)]

/-- C7: similarity is symmetric — `similarity a b = similarity b a` for every
pair of strings. -/
theorem similarity_symm : ∀ (a b : List Char), similarity a b = similarity b a := by
  intro a b
  rw [similarity, similarity, levenshtein_comm, Nat.max_comm]
  by_cases h : a = [] ∧ b = []
  · rw [if_pos h, if_pos ⟨h.2, h.1⟩]
  · rw [if_neg h, if_neg (fun hc => h ⟨hc.2, hc.1⟩)]

/-- C4: similarity is `1 - d / max(len a, len b)` for the unit-cost edit
distance `d`; it lies in `[0,1]`; it is 1 when both strings are empty and 0
when exactly one is. -/
theorem similarity_formula_and_bounds :
    ∀ (a b : List Char),
      similarity a b = 1 - (levenshtein a b : ℚ) / ((max a.length b.length : Nat) : ℚ) ∧
      0 ≤ similarity a b ∧ similarity a b ≤ 1 ∧
      (a = [] ∧ b = [] → similarity a b = 1) ∧
      (a ≠ [] ∧ b = [] → similarity a b = 0) ∧
      (a = [] ∧ b ≠ [] → similarity a b = 0) := by
  intro a b
  by_cases hab : a = [] ∧ b = []
  · obtain ⟨ha, hb⟩ := hab
    subst ha
    subst hb
    rw [similarity]
    norm_num [levenshtein_nil_left]
  · have hformula : similarity a b =
        1 - (levenshtein a b : ℚ) / ((max a.length b.length : Nat) : ℚ) := by
      rw [similarity, if_neg hab]
    have hmaxpos : 0 < max a.length b.length := by
      rcases a with _ | ⟨x, xs⟩
      · rcases b with _ | ⟨y, ys⟩
        · exact absurd ⟨rfl, rfl⟩ hab
        · simp
      · simp
    have hmaxposQ : (0 : ℚ) < ((max a.length b.length : Nat) : ℚ) := by
      exact_mod_cast hmaxpos
    have hddiv : (levenshtein a b : ℚ) / ((max a.length b.length : Nat) : ℚ) ≤ 1 := by
      rw [div_le_one hmaxposQ]
      exact_mod_cast levenshtein_le_max a b
    have hdnonneg : (0 : ℚ) ≤ (levenshtein a b : ℚ) / ((max a.length b.length : Nat) : ℚ) :=
      div_nonneg (by positivity) (le_of_lt hmaxposQ)
    refine ⟨hformula, ?_, ?_, ?_, ?_, ?_⟩
    · rw [hformula]
      linarith
    · rw [hformula]
      linarith
    · intro h
      exact absurd h hab
    · rintro ⟨ha, hb⟩
      subst hb
      rw [hformula, levenshtein_nil_right]
      have hlen : ((max a.length ([] : List Char).length : Nat) : ℚ) = (a.length : ℚ) := by
        simp
      rw [hlen, div_self, sub_self]
      have : a.length ≠ 0 := by
        cases a with
        | nil => exact absurd rfl ha
        | cons c t => simp
      exact_mod_cast this
    · rintro ⟨ha, hb⟩
      subst ha
      rw [hformula, levenshtein_nil_left]
      have hlen : ((max ([] : List Char).length b.length : Nat) : ℚ) = (b.length : ℚ) := by
        simp
      rw [hlen, div_self, sub_self]
      have : b.length ≠ 0 := by
        cases b with
        | nil => exact absurd rfl hb
        | cons c t => simp
      exact_mod_cast this

theorem esFuel_nil_left (n : Nat) (ys : List Char) :
    esFuel n [] ys = ys.map EditOp.ins := by
  cases n <;> simp [esFuel]

theorem esFuel_nil_right (n : Nat) (xs : List Char) :
    esFuel n xs [] = xs.map EditOp.del := by
  cases xs <;> cases n <;> simp [esFuel]

theorem esFuel_cons (n : Nat) (x y : Char) (xs ys : List Char) :
    esFuel (n + 1) (x :: xs) (y :: ys) =
      if x = y then EditOp.keep x :: esFuel n xs ys
      else if levenshtein xs (y :: ys) ≤ levenshtein xs ys ∧
          levenshtein xs (y :: ys) ≤ levenshtein (x :: xs) ys then
        EditOp.del x :: esFuel n xs (y :: ys)
      else if levenshtein (x :: xs) ys ≤ levenshtein xs ys then
        EditOp.ins y :: esFuel n (x :: xs) ys
      else
        EditOp.del x :: EditOp.ins y :: esFuel n xs ys :=
  rfl

theorem esFuel_congr :
    ∀ (m n : Nat) (a b : List Char), a.length + b.length ≤ m → a.length + b.length ≤ n →
      esFuel m a b = esFuel n a b := by
  intro m
  induction m with
  | zero =>
    intro n a b hm _
    have ha : a = [] := by
      cases a with
      | nil => rfl
      | cons c t => simp at hm
    subst ha
    rw [esFuel_nil_left, esFuel_nil_left]
  | succ m ih =>
    intro n a b hm hn
    cases a with
    | nil => rw [esFuel_nil_left, esFuel_nil_left]
    | cons x xs =>
      cases b with
      | nil => rw [esFuel_nil_right, esFuel_nil_right]
      | cons y ys =>
        simp only [List.length_cons] at hm hn
        cases n with
        | zero => omega
        | succ n =>
          rw [esFuel_cons, esFuel_cons]
          have h1 : esFuel m xs ys = esFuel n xs ys := ih n xs ys (by omega) (by omega)
          have h2 : esFuel m (x :: xs) ys = esFuel n (x :: xs) ys := by
            apply ih n (x :: xs) ys <;> simp <;> omega
          have h3 : esFuel m xs (y :: ys) = esFuel n xs (y :: ys) := by
            apply ih n xs (y :: ys) <;> simp <;> omega
          rw [h1, h2, h3]

theorem editScript_nil_left (ys : List Char) :
    editScript [] ys = ys.map EditOp.ins := by
  rw [editScript, esFuel_nil_left]

theorem editScript_nil_right (xs : List Char) :
    editScript xs [] = xs.map EditOp.del := by
  rw [editScript, esFuel_nil_right]

theorem editScript_cons (x y : Char) (xs ys : List Char) :
    editScript (x :: xs) (y :: ys) =
      if x = y then EditOp.keep x :: editScript xs ys
      else if levenshtein xs (y :: ys) ≤ levenshtein xs ys ∧
          levenshtein xs (y :: ys) ≤ levenshtein (x :: xs) ys then
        EditOp.del x :: editScript xs (y :: ys)
      else if levenshtein (x :: xs) ys ≤ levenshtein xs ys then
        EditOp.ins y :: editScript (x :: xs) ys
      else
        EditOp.del x :: EditOp.ins y :: editScript xs ys := by
  have hlen : (x :: xs).length + (y :: ys).length = xs.length + ys.length + 1 + 1 := by
    simp
    omega
  rw [editScript, hlen, esFuel_cons]
  have h1 : esFuel (xs.length + ys.length + 1) xs ys = editScript xs ys := by
    rw [editScript]
    apply esFuel_congr <;> omega
  have h2 : esFuel (xs.length + ys.length + 1) (x :: xs) ys = editScript (x :: xs) ys := by
    rw [editScript]
    apply esFuel_congr <;> simp <;> omega
  have h3 : esFuel (xs.length + ys.length + 1) xs (y :: ys) = editScript xs (y :: ys) := by
    rw [editScript]
    apply esFuel_congr <;> simp <;> omega
  rw [h1, h2, h3]

theorem leftOf_map_ins (ys : List Char) : leftOf (ys.map EditOp.ins) = [] := by
  induction ys with
  | nil => rfl
  | cons y t ih => simp [leftOf, ih]

theorem leftOf_map_del (xs : List Char) : leftOf (xs.map EditOp.del) = xs := by
  induction xs with
  | nil => rfl
  | cons x t ih => simp [leftOf, ih]

theorem rightOf_map_ins (ys : List Char) : rightOf (ys.map EditOp.ins) = ys := by
  induction ys with
  | nil => rfl
  | cons y t ih => simp [rightOf, ih]

theorem rightOf_map_del (xs : List Char) : rightOf (xs.map EditOp.del) = [] := by
  induction xs with
  | nil => rfl
  | cons x t ih => simp [rightOf, ih]

theorem leftOf_editScript : ∀ (a b : List Char), leftOf (editScript a b) = a := by
  intro a b
  generalize h : a.length + b.length = n
  induction n using Nat.strong_induction_on generalizing a b with
  | _ n ih =>
    cases a with
    | nil => rw [editScript_nil_left, leftOf_map_ins]
    | cons x xs =>
      cases b with
      | nil => rw [editScript_nil_right, leftOf_map_del]
      | cons y ys =>
        rw [editScript_cons]
        simp only [List.length_cons] at h
        by_cases hxy : x = y
        · rw [if_pos hxy]
          simp [leftOf, ih (xs.length + ys.length) (by omega) xs ys rfl]
        · rw [if_neg hxy]
          by_cases hd : levenshtein xs (y :: ys) ≤ levenshtein xs ys ∧
              levenshtein xs (y :: ys) ≤ levenshtein (x :: xs) ys
          · rw [if_pos hd]
            simp [leftOf, ih (xs.length + (y :: ys).length) (by simp; omega) xs (y :: ys) rfl]
          · rw [if_neg hd]
            by_cases hi : levenshtein (x :: xs) ys ≤ levenshtein xs ys
            · rw [if_pos hi]
              simp [leftOf, ih ((x :: xs).length + ys.length) (by simp; omega) (x :: xs) ys rfl]
            · rw [if_neg hi]
              simp [leftOf, ih (xs.length + ys.length) (by omega) xs ys rfl]

theorem rightOf_editScript : ∀ (a b : List Char), rightOf (editScript a b) = b := by
  intro a b
  generalize h : a.length + b.length = n
  induction n using Nat.strong_induction_on generalizing a b with
  | _ n ih =>
    cases a with
    | nil => rw [editScript_nil_left, rightOf_map_ins]
    | cons x xs =>
      cases b with
      | nil => rw [editScript_nil_right, rightOf_map_del]
      | cons y ys =>
        rw [editScript_cons]
        simp only [List.length_cons] at h
        by_cases hxy : x = y
        · rw [if_pos hxy]
          simp [rightOf, hxy, ih (xs.length + ys.length) (by omega) xs ys rfl]
        · rw [if_neg hxy]
          by_cases hd : levenshtein xs (y :: ys) ≤ levenshtein xs ys ∧
              levenshtein xs (y :: ys) ≤ levenshtein (x :: xs) ys
          · rw [if_pos hd]
            simp [rightOf, ih (xs.length + (y :: ys).length) (by simp; omega) xs (y :: ys) rfl]
          · rw [if_neg hd]
            by_cases hi : levenshtein (x :: xs) ys ≤ levenshtein xs ys
            · rw [if_pos hi]
              simp [rightOf, ih ((x :: xs).length + ys.length) (by simp; omega) (x :: xs) ys rfl]
            · rw [if_neg hi]
              simp [rightOf, ih (xs.length + ys.length) (by omega) xs ys rfl]

theorem editScript_self (a : List Char) : editScript a a = a.map EditOp.keep := by
  induction a with
  | nil => rfl
  | cons x xs ih =>
    rw [editScript_cons, if_pos rfl, ih]
    rfl

theorem renderLeft_keeps (a : List Char) : renderLeft false (a.map EditOp.keep) = a := by
  induction a with
  | nil => rfl
  | cons x xs ih => simp [renderLeft, ih]

theorem renderRight_keeps (a : List Char) : renderRight false (a.map EditOp.keep) = a := by
  induction a with
  | nil => rfl
  | cons x xs ih => simp [renderRight, ih]

theorem stripMarks_double_tilde (l : List Char) :
    stripMarks ('~' :: '~' :: l) = stripMarks l := by
  simp [stripMarks]

theorem stripMarks_double_star (l : List Char) :
    stripMarks ('*' :: '*' :: l) = stripMarks l := by
  simp [stripMarks]

theorem stripMarks_cons (c : Char) (l : List Char) (h1 : c ≠ '~') (h2 : c ≠ '*') :
    stripMarks (c :: l) = c :: stripMarks l := by
  cases l with
  | nil => simp [stripMarks]
  | cons d r => simp [stripMarks, h1, h2]

theorem stripMarks_renderLeft :
    ∀ (ops : List EditOp) (inDel : Bool),
      (∀ c ∈ leftOf ops, c ≠ '~' ∧ c ≠ '*') →
      stripMarks (renderLeft inDel ops) = leftOf ops := by
  intro ops
  induction ops with
  | nil =>
    intro inDel _
    cases inDel <;> simp [renderLeft, leftOf, stripMarks]
  | cons op rest ih =>
    intro inDel hclean
    cases op with
    | keep c =>
      have hc : c ≠ '~' ∧ c ≠ '*' := hclean c (by simp [leftOf])
      have hrest : ∀ d ∈ leftOf rest, d ≠ '~' ∧ d ≠ '*' := by
        intro d hd
        exact hclean d (by simp [leftOf, hd])
      cases inDel with
      | false =>
        have e : renderLeft false (EditOp.keep c :: rest) = c :: renderLeft false rest := by
          simp [renderLeft]
        rw [e, stripMarks_cons c (renderLeft false rest) hc.1 hc.2, ih false hrest]
        simp [leftOf]
      | true =>
        have e : renderLeft true (EditOp.keep c :: rest) =
            '~' :: '~' :: c :: renderLeft false rest := by
          simp [renderLeft]
        rw [e, stripMarks_double_tilde,
          stripMarks_cons c (renderLeft false rest) hc.1 hc.2, ih false hrest]
        simp [leftOf]
    | del c =>
      have hc : c ≠ '~' ∧ c ≠ '*' := hclean c (by simp [leftOf])
      have hrest : ∀ d ∈ leftOf rest, d ≠ '~' ∧ d ≠ '*' := by
        intro d hd
        exact hclean d (by simp [leftOf, hd])
      cases inDel with
      | false =>
        have e : renderLeft false (EditOp.del c :: rest) =
            '~' :: '~' :: c :: renderLeft true rest := by
          simp [renderLeft]
        rw [e, stripMarks_double_tilde,
          stripMarks_cons c (renderLeft true rest) hc.1 hc.2, ih true hrest]
        simp [leftOf]
      | true =>
        have e : renderLeft true (EditOp.del c :: rest) = c :: renderLeft true rest := by
          simp [renderLeft]
        rw [e, stripMarks_cons c (renderLeft true rest) hc.1 hc.2, ih true hrest]
        simp [leftOf]
    | ins c =>
      have hrest : ∀ d ∈ leftOf rest, d ≠ '~' ∧ d ≠ '*' := by
        intro d hd
        exact hclean d (by simp [leftOf, hd])
      have e : ∀ s, renderLeft s (EditOp.ins c :: rest) = renderLeft s rest := by
        intro s
        cases s <;> simp [renderLeft]
      rw [e, ih inDel hrest]
      simp [leftOf]

theorem stripMarks_renderRight :
    ∀ (ops : List EditOp) (inIns : Bool),
      (∀ c ∈ rightOf ops, c ≠ '~' ∧ c ≠ '*') →
      stripMarks (renderRight inIns ops) = rightOf ops := by
  intro ops
  induction ops with
  | nil =>
    intro inIns _
    cases inIns <;> simp [renderRight, rightOf, stripMarks]
  | cons op rest ih =>
    intro inIns hclean
    cases op with
    | keep c =>
      have hc : c ≠ '~' ∧ c ≠ '*' := hclean c (by simp [rightOf])
      have hrest : ∀ d ∈ rightOf rest, d ≠ '~' ∧ d ≠ '*' := by
        intro d hd
        exact hclean d (by simp [rightOf, hd])
      cases inIns with
      | false =>
        have e : renderRight false (EditOp.keep c :: rest) = c :: renderRight false rest := by
          simp [renderRight]
        rw [e, stripMarks_cons c (renderRight false rest) hc.1 hc.2, ih false hrest]
        simp [rightOf]
      | true =>
        have e : renderRight true (EditOp.keep c :: rest) =
            '*' :: '*' :: c :: renderRight false rest := by
          simp [renderRight]
        rw [e, stripMarks_double_star,
          stripMarks_cons c (renderRight false rest) hc.1 hc.2, ih false hrest]
        simp [rightOf]
    | ins c =>
      have hc : c ≠ '~' ∧ c ≠ '*' := hclean c (by simp [rightOf])
      have hrest : ∀ d ∈ rightOf rest, d ≠ '~' ∧ d ≠ '*' := by
        intro d hd
        exact hclean d (by simp [rightOf, hd])
      cases inIns with
      | false =>
        have e : renderRight false (EditOp.ins c :: rest) =
            '*' :: '*' :: c :: renderRight true rest := by
          simp [renderRight]
        rw [e, stripMarks_double_star,
          stripMarks_cons c (renderRight true rest) hc.1 hc.2, ih true hrest]
        simp [rightOf]
      | true =>
        have e : renderRight true (EditOp.ins c :: rest) = c :: renderRight true rest := by
          simp [renderRight]
        rw [e, stripMarks_cons c (renderRight true rest) hc.1 hc.2, ih true hrest]
        simp [rightOf]
    | del c =>
      have hrest : ∀ d ∈ rightOf rest, d ≠ '~' ∧ d ≠ '*' := by
        intro d hd
        exact hclean d (by simp [rightOf, hd])
      have e : ∀ s, renderRight s (EditOp.del c :: rest) = renderRight s rest := by
        intro s
        cases s <;> simp [renderRight]
      rw [e, ih inIns hrest]
      simp [rightOf]

/-- C5 (amended): for inputs free of the delimiter characters `~` and `*`,
stripping all markers from the left output of `highlight` reconstructs the
left input and likewise on the right; and for every string,
`highlight a a` emits no markers — both outputs equal the unmarked input. -/
theorem highlight_roundtrip :
    (∀ (a b : List Char), CleanStr a → CleanStr b →
      stripMarks (highlight a b).1 = a ∧ stripMarks (highlight a b).2 = b) ∧
    (∀ (a : List Char), highlight a a = (a, a)) := by
  constructor
  · intro a b hca hcb
    constructor
    · have h := stripMarks_renderLeft (editScript a b) false
      rw [leftOf_editScript] at h
      exact h hca
    · have h := stripMarks_renderRight (editScript a b) false
      rw [rightOf_editScript] at h
      exact h hcb
  · intro a
    rw [highlight, editScript_self, renderLeft_keeps, renderRight_keeps]

/-- C5 counterexample: for a left input that itself contains the removal
delimiter, stripping all markers does not reconstruct the input, refuting the
round-trip property for arbitrary strings. -/
theorem highlight_roundtrip_counterexample :
    stripMarks (highlight ['~', '~'] []).1 ≠ ['~', '~'] := by decide

/-- Witness for C5 at concrete marker-free inputs. -/
theorem highlight_roundtrip_witness :
    stripMarks (highlight ['a', 'b'] ['a', 'c']).1 = ['a', 'b'] ∧
      stripMarks (highlight ['a', 'b'] ['a', 'c']).2 = ['a', 'c'] :=
  highlight_roundtrip.1 ['a', 'b'] ['a', 'c'] (by decide) (by decide)

/-- Witness for C4 at a concrete input: `similarity "a" "" = 0` among the
other clauses. -/
theorem similarity_formula_and_bounds_witness :
    similarity ['a'] [] = 1 - (levenshtein ['a'] [] : ℚ) /
        ((max (['a'] : List Char).length ([] : List Char).length : Nat) : ℚ) ∧
      0 ≤ similarity ['a'] [] ∧ similarity ['a'] [] ≤ 1 ∧
      ((['a'] : List Char) = [] ∧ ([] : List Char) = [] → similarity ['a'] [] = 1) ∧
      ((['a'] : List Char) ≠ [] ∧ ([] : List Char) = [] → similarity ['a'] [] = 0) ∧
      ((['a'] : List Char) = [] ∧ ([] : List Char) ≠ [] → similarity ['a'] [] = 0) :=
  similarity_formula_and_bounds ['a'] []

theorem trimLeft_noLead :
    ∀ (l : List Char) (x : Char) (t : List Char),
      trimLeft l = x :: t → isWS x = false := by
  intro l
  induction l with
  | nil =>
    intro x t h
    simp [trimLeft] at h
  | cons c r ih =>
    intro x t h
    by_cases hc : isWS c
    · rw [trimLeft, if_pos hc] at h
      exact ih x t h
    · rw [trimLeft, if_neg hc] at h
      injection h with h1 h2
      subst h1
      exact Bool.eq_false_iff.mpr hc

theorem trimLeft_of_noLead :
    ∀ (l : List Char), (∀ x t, l = x :: t → isWS x = false) → trimLeft l = l := by
  intro l h
  cases l with
  | nil => rfl
  | cons c r => simp [trimLeft, h c r rfl]

theorem trimRight_head :
    ∀ (m : List Char) (x : Char) (s : List Char),
      trimRight m = x :: s → ∃ s2, m = x :: s2 := by
  intro m
  induction m with
  | nil =>
    intro x s h
    simp [trimRight] at h
  | cons c r ih =>
    intro x s h
    rw [trimRight] at h
    cases htr : trimRight r with
    | nil =>
      rw [htr] at h
      by_cases hc : isWS c
      · simp [hc] at h
      · simp [hc] at h
        exact ⟨r, by rw [h.1]⟩
    | cons x2 r2 =>
      rw [htr] at h
      injection h with h1 h2
      exact ⟨r, by rw [h1]⟩

theorem trimRight_idem : ∀ (m : List Char), trimRight (trimRight m) = trimRight m := by
  intro m
  induction m with
  | nil => rfl
  | cons c r ih =>
    cases htr : trimRight r with
    | nil =>
      by_cases hc : isWS c
      · simp [trimRight, htr, hc]
      · simp [trimRight, htr, hc]
    | cons x r2 =>
      have h1 : trimRight (c :: r) = c :: x :: r2 := by
        rw [trimRight, htr]
      have h2 : trimRight (x :: r2) = x :: r2 := by
        rw [← htr, ih, htr]
      rw [h1, trimRight, h2]

theorem trim_trim (l : List Char) : trim (trim l) = trim l := by
  rw [trim, trim]
  have hnl : ∀ x t, trimRight (trimLeft l) = x :: t → isWS x = false := by
    intro x t h
    obtain ⟨s2, hs⟩ := trimRight_head (trimLeft l) x t h
    exact trimLeft_noLead l x s2 hs
  rw [trimLeft_of_noLead _ hnl, trimRight_idem]

/-- C9: every line of a fetched UN document is a nonempty string equal to its
own trim; for a PDF-extracted document every line additionally has length
strictly above 15; and `lineCount` always equals the number of lines. -/
theorem fetchUNDocument_lines_invariant :
    ∀ (symbol : List Char) (docText pdfText : Option (List Char)) (d : UNDocument),
      fetchUNDocument symbol docText pdfText = some d →
      (∀ l ∈ d.lines, l ≠ [] ∧ trim l = l ∧ (d.format = DocFormat.pdf → 15 < l.length)) ∧
      d.lineCount = d.lines.length := by
  intro symbol docText pdfText d hfetch
  have main : ∀ t : List Char, d = extractWordDocument symbol t ∨ d = extractPdfDocument symbol t →
      (∀ l ∈ d.lines, l ≠ [] ∧ trim l = l ∧ (d.format = DocFormat.pdf → 15 < l.length)) ∧
      d.lineCount = d.lines.length := by
    intro t hd
    cases hd with
    | inl hw =>
      subst hw
      constructor
      · intro l hl
        rw [extractWordDocument] at hl
        simp only [List.mem_filter, List.mem_map] at hl
        obtain ⟨⟨a, _, ha⟩, hcond⟩ := hl
        refine ⟨?_, ?_, ?_⟩
        · intro hnil
          subst hnil
          simp at hcond
        · rw [← ha, trim_trim]
        · intro hfmt
          exact absurd hfmt (by simp [extractWordDocument])
      · rfl
    | inr hp =>
      subst hp
      constructor
      · intro l hl
        rw [extractPdfDocument] at hl
        simp only [List.mem_filter, List.mem_map] at hl
        obtain ⟨⟨a, _, ha⟩, hcond⟩ := hl
        rw [Bool.and_eq_true] at hcond
        refine ⟨?_, ?_, ?_⟩
        · intro hnil
          subst hnil
          simp at hcond
        · rw [← ha, trim_trim]
        · intro _
          exact of_decide_eq_true hcond.2
      · rfl
  cases docText with
  | some t =>
    rw [fetchUNDocument] at hfetch
    injection hfetch with hd
    exact main t (Or.inl hd.symm)
  | none =>
    cases pdfText with
    | some t =>
      rw [fetchUNDocument] at hfetch
      injection hfetch with hd
      exact main t (Or.inr hd.symm)
    | none =>
      rw [fetchUNDocument] at hfetch
      exact absurd hfetch (by simp)

/-- Witness for C9 at a concrete fetched document. -/
theorem fetchUNDocument_lines_invariant_witness :
    (∀ l ∈ (extractWordDocument ['X'] ['a']).lines,
        l ≠ [] ∧ trim l = l ∧
          ((extractWordDocument ['X'] ['a']).format = DocFormat.pdf → 15 < l.length)) ∧
      (extractWordDocument ['X'] ['a']).lineCount =
        (extractWordDocument ['X'] ['a']).lines.length :=
  fetchUNDocument_lines_invariant ['X'] (some ['a']) none (extractWordDocument ['X'] ['a']) rfl

theorem takeWhile_all (p : Char → Bool) :
    ∀ (l : List Char), (∀ c ∈ l, p c = true) →
      l.takeWhile p = l ∧ l.dropWhile p = [] := by
  intro l
  induction l with
  | nil => intro _; exact ⟨rfl, rfl⟩
  | cons c r ih =>
    intro h
    have hc : p c = true := h c (by simp)
    have hr := ih (fun d hd => h d (by simp [hd]))
    rw [List.takeWhile_cons, List.dropWhile_cons]
    simp [hc, hr.1, hr.2]

theorem takeWhile_append_stop (p : Char → Bool) :
    ∀ (l1 : List Char) (x : Char) (l2 : List Char),
      (∀ c ∈ l1, p c = true) → p x = false →
      (l1 ++ x :: l2).takeWhile p = l1 ∧ (l1 ++ x :: l2).dropWhile p = x :: l2 := by
  intro l1
  induction l1 with
  | nil =>
    intro x l2 _ hx
    rw [List.nil_append, List.takeWhile_cons, List.dropWhile_cons]
    simp [hx]
  | cons c r ih =>
    intro x l2 h hx
    have hc : p c = true := h c (by simp)
    have hr := ih x l2 (fun d hd => h d (by simp [hd])) hx
    rw [List.cons_append, List.takeWhile_cons, List.dropWhile_cons]
    simp [hc, hr.1, hr.2]

/-- C10: `extractYear` returns 1945 + session when the parsed session is below
200, the session itself when above 1900, and null otherwise (no session, or a
session in the gap `[200, 1900]`); every `S/RES/X/Y` symbol parses with
session 0 and so yields year 1945. -/
theorem extractYear_spec :
    (∀ (symbol : List Char) (s : Nat), (parseUNSymbol symbol).session = some s → s < 200 →
        extractYear symbol = some (1945 + s)) ∧
    (∀ (symbol : List Char) (s : Nat), (parseUNSymbol symbol).session = some s → 1900 < s →
        extractYear symbol = some s) ∧
    (∀ (symbol : List Char), (parseUNSymbol symbol).session = none →
        extractYear symbol = none) ∧
    (∀ (symbol : List Char) (s : Nat), (parseUNSymbol symbol).session = some s →
        200 ≤ s → s ≤ 1900 → extractYear symbol = none) ∧
    (∀ (ds1 ds2 : List Char), ds1 ≠ [] → ds2 ≠ [] →
      (∀ c ∈ ds1, c.isDigit = true) → (∀ c ∈ ds2, c.isDigit = true) →
      (parseUNSymbol ('S' :: '/' :: 'R' :: 'E' :: 'S' :: '/' :: (ds1 ++ '/' :: ds2))).session =
          some 0 ∧
        extractYear ('S' :: '/' :: 'R' :: 'E' :: 'S' :: '/' :: (ds1 ++ '/' :: ds2)) =
          some 1945) := by
  have hgap : ∀ (symbol : List Char) (s : Nat), (parseUNSymbol symbol).session = some s →
      200 ≤ s → s ≤ 1900 → extractYear symbol = none := by
    intro symbol s h h1 h2
    rw [extractYear, h]
    have hn1 : ¬ s < 200 := by omega
    have hn2 : ¬ 1900 < s := by omega
    simp [hn1, hn2]
  refine ⟨?_, ?_, ?_, hgap, ?_⟩
  · intro symbol s h hs
    rw [extractYear, h]
    simp [hs]
  · intro symbol s h hs
    rw [extractYear, h]
    have hn1 : ¬ s < 200 := by omega
    simp [hn1, hs]
  · intro symbol h
    rw [extractYear, h]
  · intro ds1 ds2 h1 h2 hd1 hd2
    have htw1 := takeWhile_append_stop Char.isDigit ds1 '/' ds2 hd1 (by decide)
    have htw2 := takeWhile_all Char.isDigit ds2 hd2
    have hres : matchResolution ('S' :: '/' :: 'R' :: 'E' :: 'S' :: '/' :: (ds1 ++ '/' :: ds2)) =
        some ('S', digitsToNat ds1, digitsToNat ds2) := by
      rw [matchResolution]
      simp only [htw1.1, htw1.2, htw2.1, htw2.2]
      simp [h1, h2]
    have hparse : parseUNSymbol ('S' :: '/' :: 'R' :: 'E' :: 'S' :: '/' :: (ds1 ++ '/' :: ds2)) =
        { body := ['S'], session := some 0, number := some (digitsToNat ds2),
          type := SymbolType.resolution } := by
      rw [parseUNSymbol, hres]
      simp
    refine ⟨by rw [hparse], ?_⟩
    rw [extractYear, hparse]
    simp

theorem attachHighlight_kind (it : DiffItem) : (attachHighlight it).kind = it.kind := by
  rw [attachHighlight]
  split
  all_goals first
  | rfl
  | (split <;> rfl)

theorem attachHighlight_leftText (it : DiffItem) :
    (attachHighlight it).leftText = it.leftText := by
  rw [attachHighlight]
  split
  all_goals first
  | rfl
  | (split <;> rfl)

theorem attachHighlight_rightText (it : DiffItem) :
    (attachHighlight it).rightText = it.rightText := by
  rw [attachHighlight]
  split
  all_goals first
  | rfl
  | (split <;> rfl)

theorem attachHighlight_rightIndex (it : DiffItem) :
    (attachHighlight it).rightIndex = it.rightIndex := by
  rw [attachHighlight]
  split
  all_goals first
  | rfl
  | (split <;> rfl)

theorem filterMap_leftText_map_attach (l : List DiffItem) :
    (l.map attachHighlight).filterMap (fun x => x.leftText) =
      l.filterMap (fun x => x.leftText) := by
  rw [List.filterMap_map]
  congr 1
  funext it
  simp [Function.comp, attachHighlight_leftText]

theorem filterMap_rightText_map_attach (l : List DiffItem) :
    (l.map attachHighlight).filterMap (fun x => x.rightText) =
      l.filterMap (fun x => x.rightText) := by
  rw [List.filterMap_map]
  congr 1
  funext it
  simp [Function.comp, attachHighlight_rightText]

theorem filter_bothSided_map_attach (l : List DiffItem) :
    (l.map attachHighlight).filter bothSided = (l.filter bothSided).map attachHighlight := by
  rw [List.filter_map]
  congr 1
  congr 1
  funext it
  simp [bothSided, Function.comp, attachHighlight_leftText, attachHighlight_rightText]

theorem insertAdded_perm (it : DiffItem) (j : Nat) :
    ∀ (l : List DiffItem), (insertAdded it j l).Perm (it :: l) := by
  intro l
  induction l with
  | nil => exact List.Perm.refl _
  | cons x rest ih =>
    rw [insertAdded]
    cases hx : x.rightIndex with
    | some k =>
      by_cases hj : j < k
      · simp only [hj, if_true]
        exact List.Perm.refl _
      · simp only [hj, if_false]
        exact (ih.cons x).trans (List.Perm.swap it x rest)
    | none =>
      exact (ih.cons x).trans (List.Perm.swap it x rest)

theorem insertAdded_filterMap_left (it : DiffItem) (j : Nat) (hl : it.leftText = none) :
    ∀ (l : List DiffItem),
      (insertAdded it j l).filterMap (fun x => x.leftText) =
        l.filterMap (fun x => x.leftText) := by
  intro l
  induction l with
  | nil => simp [insertAdded, List.filterMap_cons, hl]
  | cons x rest ih =>
    rw [insertAdded]
    cases hx : x.rightIndex with
    | some k =>
      by_cases hj : j < k
      · simp only [hj, if_true]
        simp [List.filterMap_cons, hl]
      · simp only [hj, if_false]
        simp only [List.filterMap_cons, ih]
    | none =>
      simp only [List.filterMap_cons, ih]

theorem insertAdded_filter_not (it : DiffItem) (j : Nat) (p : DiffItem → Bool)
    (hp : p it = false) :
    ∀ (l : List DiffItem), (insertAdded it j l).filter p = l.filter p := by
  intro l
  induction l with
  | nil => simp [insertAdded, List.filter_cons, hp]
  | cons x rest ih =>
    rw [insertAdded]
    cases hx : x.rightIndex with
    | some k =>
      by_cases hj : j < k
      · simp only [hj, if_true]
        simp [List.filter_cons, hp]
      · simp only [hj, if_false]
        simp only [List.filter_cons, ih]
    | none =>
      simp only [List.filter_cons, ih]

theorem foldl_insertAdded_filterMap_left :
    ∀ (added : List (Nat × List Char)) (acc : List DiffItem),
      ((added.foldl (fun acc2 p => insertAdded (addedItem p.2 p.1) p.1 acc2)
          acc).filterMap (fun x => x.leftText)) =
        acc.filterMap (fun x => x.leftText) := by
  intro added
  induction added with
  | nil => intro acc; rfl
  | cons p rest ih =>
    intro acc
    rw [List.foldl_cons, ih, insertAdded_filterMap_left _ _ rfl]

theorem foldl_insertAdded_filter_bothSided :
    ∀ (added : List (Nat × List Char)) (acc : List DiffItem),
      (added.foldl (fun acc2 p => insertAdded (addedItem p.2 p.1) p.1 acc2)
          acc).filter bothSided =
        acc.filter bothSided := by
  intro added
  induction added with
  | nil => intro acc; rfl
  | cons p rest ih =>
    intro acc
    rw [List.foldl_cons, ih, insertAdded_filter_not _ _ _ rfl]

theorem foldl_insertAdded_rightTexts_perm :
    ∀ (added : List (Nat × List Char)) (acc : List DiffItem),
      ((added.foldl (fun acc2 p => insertAdded (addedItem p.2 p.1) p.1 acc2)
          acc).filterMap (fun x => x.rightText)).Perm
        (added.map (fun p => p.2) ++ acc.filterMap (fun x => x.rightText)) := by
  intro added
  induction added with
  | nil => intro acc; exact List.Perm.refl _
  | cons p rest ih =>
    intro acc
    rw [List.foldl_cons]
    refine (ih _).trans ?_
    have h1 : ((insertAdded (addedItem p.2 p.1) p.1 acc).filterMap
        (fun x => x.rightText)).Perm
        (p.2 :: acc.filterMap (fun x => x.rightText)) := by
      have := (insertAdded_perm (addedItem p.2 p.1) p.1 acc).filterMap (fun x => x.rightText)
      simpa [List.filterMap_cons, addedItem] using this
    refine (List.Perm.append_left (rest.map (fun p => p.2)) h1).trans ?_
    exact List.perm_middle

theorem pickBestAux_mem :
    ∀ (l : List (Nat × List Char)) (t : ℚ) (li : Nat) (line : List Char)
      (acc : Option (Nat × List Char)) (p : Nat × List Char),
      pickBestAux t li line acc l = some p → p ∈ l ∨ acc = some p := by
  intro l
  induction l with
  | nil =>
    intro t li line acc p h
    exact Or.inr h
  | cons q rest ih =>
    intro t li line acc p h
    simp only [pickBestAux] at h
    by_cases hq : t ≤ similarity line q.2
    · rw [if_pos hq] at h
      cases hacc : acc with
      | none =>
        rw [hacc] at h
        rcases ih t li line (some q) p h with hmem | heq
        · exact Or.inl (List.mem_cons_of_mem q hmem)
        · injection heq with he
          exact Or.inl (he ▸ List.mem_cons_self q rest)
      | some q0 =>
        rw [hacc] at h
        rcases ih t li line (some (if betterCand li line q q0 then q else q0)) p h with
          hmem | heq
        · exact Or.inl (List.mem_cons_of_mem q hmem)
        · injection heq with he
          by_cases hb : betterCand li line q q0
          · rw [if_pos hb] at he
            exact Or.inl (he ▸ List.mem_cons_self q rest)
          · rw [if_neg hb] at he
            right
            rw [he]
    · rw [if_neg hq] at h
      rcases ih t li line acc p h with hmem | heq
      · exact Or.inl (List.mem_cons_of_mem q hmem)
      · exact Or.inr heq

theorem pickBest_mem (t : ℚ) (li : Nat) (line : List Char)
    (remaining : List (Nat × List Char)) (p : Nat × List Char)
    (h : pickBest t li line remaining = some p) : p ∈ remaining := by
  rcases pickBestAux_mem remaining t li line none p h with hm | he
  · exact hm
  · exact absurd he (by simp)

theorem perm_cons_eraseFirst (p : Nat × List Char) :
    ∀ (l : List (Nat × List Char)), p ∈ l → l.Perm (p :: eraseFirst p l) := by
  intro l
  induction l with
  | nil => intro h; exact absurd h (by simp)
  | cons q rest ih =>
    intro h
    rw [eraseFirst]
    by_cases hq : q = p
    · rw [if_pos hq, hq]
    · rw [if_neg hq]
      have hmem : p ∈ rest := by
        rcases List.mem_cons.mp h with h1 | h1
        · exact absurd h1.symm hq
        · exact h1
      exact ((ih hmem).cons q).trans (List.Perm.swap p q (eraseFirst p rest))

theorem alignGo_filterMap_left :
    ∀ (lefts : List (List Char)) (t : ℚ) (li : Nat)
      (remaining : List (Nat × List Char)) (consumed : List Nat),
      ((alignGo t li lefts remaining consumed).1).filterMap (fun x => x.leftText) = lefts := by
  intro lefts
  induction lefts with
  | nil =>
    intro t li remaining consumed
    rfl
  | cons line rest ih =>
    intro t li remaining consumed
    cases hp : pickBest t li line remaining with
    | none =>
      simp only [alignGo, hp, List.filterMap_cons, removedItem]
      rw [ih]
    | some p =>
      simp only [alignGo, hp, List.filterMap_cons, matchedItem]
      rw [ih]

theorem alignGo_rightTexts_perm :
    ∀ (lefts : List (List Char)) (t : ℚ) (li : Nat)
      (remaining : List (Nat × List Char)) (consumed : List Nat),
      (((alignGo t li lefts remaining consumed).1).filterMap (fun x => x.rightText) ++
        ((alignGo t li lefts remaining consumed).2).map (fun p => p.2)).Perm
        (remaining.map (fun p => p.2)) := by
  intro lefts
  induction lefts with
  | nil =>
    intro t li remaining consumed
    simp only [alignGo, List.filterMap_nil, List.nil_append]
    exact List.Perm.refl _
  | cons line rest ih =>
    intro t li remaining consumed
    cases hp : pickBest t li line remaining with
    | none =>
      simp only [alignGo, hp, List.filterMap_cons, removedItem]
      exact ih t (li + 1) remaining consumed
    | some p =>
      have hmem : p ∈ remaining := pickBest_mem t li line remaining p hp
      simp only [alignGo, hp, List.filterMap_cons, matchedItem, List.cons_append]
      have h2 : (remaining.map (fun p => p.2)).Perm
          (p.2 :: (eraseFirst p remaining).map (fun p => p.2)) := by
        simpa using (perm_cons_eraseFirst p remaining hmem).map (fun p => p.2)
      exact ((ih t (li + 1) (eraseFirst p remaining) (p.1 :: consumed)).cons p.2).trans h2.symm

theorem alignGo_moved_iff :
    ∀ (lefts : List (List Char)) (t : ℚ) (li : Nat)
      (remaining : List (Nat × List Char)) (consumed : List Nat)
      (pre : List DiffItem) (it : DiffItem) (post : List DiffItem),
      ((alignGo t li lefts remaining consumed).1).filter bothSided = pre ++ it :: post →
      (it.kind = DiffItemKind.Moved ↔
        ∃ j, it.rightIndex = some j ∧
          ∃ k, (k ∈ pre.filterMap (fun x => x.rightIndex) ∨ k ∈ consumed) ∧ j < k) := by
  intro lefts
  induction lefts with
  | nil =>
    intro t li remaining consumed pre it post h
    simp only [alignGo, List.filter_nil] at h
    exact absurd h.symm (List.cons_ne_nil it post |> fun hne => by simp [hne])
  | cons line rest ih =>
    intro t li remaining consumed pre it post h
    cases hp : pickBest t li line remaining with
    | none =>
      simp only [alignGo, hp] at h
      rw [List.filter_cons_of_neg (by simp [bothSided, removedItem])] at h
      exact ih t (li + 1) remaining consumed pre it post h
    | some p =>
      simp only [alignGo, hp] at h
      rw [List.filter_cons_of_pos (by simp [bothSided, matchedItem])] at h
      cases pre with
      | nil =>
        rw [List.nil_append] at h
        injection h with h1 h2
        rw [← h1]
        simp only [matchedItem]
        by_cases hmv : consumed.any (fun c => decide (p.1 < c)) = true
        · rw [if_pos hmv]
          simp only [List.any_eq_true, decide_eq_true_eq] at hmv
          obtain ⟨k, hk, hlt⟩ := hmv
          simp only [true_iff]
          exact ⟨p.1, rfl, k, Or.inr hk, hlt⟩
        · rw [if_neg hmv]
          simp only [List.any_eq_true, decide_eq_true_eq] at hmv
          push_neg at hmv
          constructor
          · intro hc
            exact absurd hc (by simp)
          · rintro ⟨j, hj, k, hk, hlt⟩
            injection hj with hj
            subst hj
            rcases hk with hk | hk
            · simp [List.filterMap_nil] at hk
            · exact absurd hlt (by simpa using hmv k hk)
      | cons q pre2 =>
        rw [List.cons_append] at h
        injection h with h1 h2
        rw [ih t (li + 1) (eraseFirst p remaining) (p.1 :: consumed) pre2 it post h2]
        have hq : q.rightIndex = some p.1 := by
          rw [← h1]
          rfl
        constructor
        · rintro ⟨j, hj, k, hk, hlt⟩
          refine ⟨j, hj, k, ?_, hlt⟩
          rcases hk with hk | hk
          · exact Or.inl (by simp [List.filterMap_cons, hq, hk])
          · rcases List.mem_cons.mp hk with hk | hk
            · exact Or.inl (by simp [List.filterMap_cons, hq, hk])
            · exact Or.inr hk
        · rintro ⟨j, hj, k, hk, hlt⟩
          refine ⟨j, hj, k, ?_, hlt⟩
          rcases hk with hk | hk
          · rw [List.filterMap_cons, hq] at hk
            rcases List.mem_cons.mp hk with hk | hk
            · exact Or.inr (by simp [hk])
            · exact Or.inl hk
          · exact Or.inr (List.mem_cons_of_mem p.1 hk)

theorem diffCore_items (L R : List (List Char)) (t : ℚ) :
    (diffCore L R t).items =
      (((alignGo t 0 L R.enum []).2).foldl
        (fun acc p => insertAdded (addedItem p.2 p.1) p.1 acc)
        ((alignGo t 0 L R.enum []).1)).map attachHighlight :=
  rfl

theorem diffCore_score (L R : List (List Char)) (t : ℚ) :
    (diffCore L R t).score = scoreOf (diffCore L R t).items :=
  rfl

theorem diffCore_left (L R : List (List Char)) (t : ℚ) :
    (diffCore L R t).items.filterMap (fun x => x.leftText) = L := by
  rw [diffCore_items, filterMap_leftText_map_attach, foldl_insertAdded_filterMap_left,
    alignGo_filterMap_left]

theorem enum_map_snd_fun (R : List (List Char)) :
    R.enum.map (fun p => p.2) = R := by
  have h : (fun p : Nat × List Char => p.2) = Prod.snd := rfl
  rw [h, List.enum_map_snd]

theorem diffCore_right_perm (L R : List (List Char)) (t : ℚ) :
    ((diffCore L R t).items.filterMap (fun x => x.rightText)).Perm R := by
  rw [diffCore_items, filterMap_rightText_map_attach]
  refine (foldl_insertAdded_rightTexts_perm _ _).trans ?_
  refine List.Perm.trans List.perm_append_comm ?_
  refine (alignGo_rightTexts_perm L t 0 R.enum []).trans ?_
  rw [enum_map_snd_fun]

theorem diffCore_both_filter (L R : List (List Char)) (t : ℚ) :
    (diffCore L R t).items.filter bothSided =
      (((alignGo t 0 L R.enum []).1).filter bothSided).map attachHighlight := by
  rw [diffCore_items, filter_bothSided_map_attach, foldl_insertAdded_filter_bothSided]

theorem filterMap_rightIndex_map_attach (l : List DiffItem) :
    (l.map attachHighlight).filterMap (fun x => x.rightIndex) =
      l.filterMap (fun x => x.rightIndex) := by
  rw [List.filterMap_map]
  congr 1
  funext it
  simp [Function.comp, attachHighlight_rightIndex]

theorem diffCore_moved_iff (L R : List (List Char)) (t : ℚ)
    (pre : List DiffItem) (it : DiffItem) (post : List DiffItem)
    (h : (diffCore L R t).items.filter bothSided = pre ++ it :: post) :
    it.kind = DiffItemKind.Moved ↔
      ∃ j, it.rightIndex = some j ∧
        ∃ k ∈ pre.filterMap (fun x => x.rightIndex), j < k := by
  rw [diffCore_both_filter] at h
  obtain ⟨l1, l2, hM, hpre, hl2⟩ := List.map_eq_append_iff.mp h
  obtain ⟨it0, post0, hl2e, hit, hpost⟩ := List.map_eq_cons_iff.mp hl2
  subst hl2e
  have hchar := alignGo_moved_iff L t 0 R.enum [] l1 it0 post0 hM
  have hkind : it.kind = it0.kind := by rw [← hit, attachHighlight_kind]
  have hridx : it.rightIndex = it0.rightIndex := by rw [← hit, attachHighlight_rightIndex]
  have hpreidx : pre.filterMap (fun x => x.rightIndex) =
      l1.filterMap (fun x => x.rightIndex) := by
    rw [← hpre, filterMap_rightIndex_map_attach]
  rw [hkind, hridx, hpreidx, hchar]
  constructor
  · rintro ⟨j, hj, k, hk, hlt⟩
    rcases hk with hk | hk
    · exact ⟨j, hj, k, hk, hlt⟩
    · exact absurd hk (by simp)
  · rintro ⟨j, hj, k, hk, hlt⟩
    exact ⟨j, hj, k, Or.inl hk, hlt⟩

theorem foldl_add_simD :
    ∀ (l : List DiffItem) (init : ℚ),
      l.foldl (fun acc it => acc + it.similarity.getD 0) init =
        init + (l.map (fun it => it.similarity.getD 0)).sum := by
  intro l
  induction l with
  | nil =>
    intro init
    simp
  | cons x rest ih =>
    intro init
    rw [List.foldl_cons, ih, List.map_cons, List.sum_cons]
    ring

theorem scoreOf_formula (items : List DiffItem) (h : items ≠ []) :
    scoreOf items =
      (items.map (fun it => it.similarity.getD 0)).sum / (items.length : ℚ) := by
  rw [scoreOf, if_neg (by simpa using h), foldl_add_simD, zero_add]

theorem diff_ok_of_valid (L R : List (List Char)) (t : ℚ) (h0 : 0 ≤ t) (h1 : t ≤ 1) :
    diff L R (some t) = Except.ok (diffCore L R t) := by
  rw [diff, if_neg]
  push_neg
  constructor <;> linarith

/-- C1 (amended): for every valid threshold, `diff` succeeds and its items
cover both inputs exactly — the items filtered to left sides reconstruct `L`
in its original order, and the right sides of the items are a permutation of
`R`, so every element of either input appears in exactly one item; the
original order of `R` itself is not always reconstructed (see the
counterexample with a `Moved` item). -/
theorem diff_coverage :
    ∀ (L R : List (List Char)) (t : ℚ), 0 ≤ t → t ≤ 1 →
      ∃ res, diff L R (some t) = Except.ok res ∧
        res.items.filterMap (fun x => x.leftText) = L ∧
        (res.items.filterMap (fun x => x.rightText)).Perm R := by
  intro L R t h0 h1
  exact ⟨diffCore L R t, diff_ok_of_valid L R t h0 h1,
    diffCore_left L R t, diffCore_right_perm L R t⟩

/-- C1 counterexample: with `L = [x, y, z]`, `R = [z, x, y]` and the valid
default threshold 0.8, the pair `z` is matched out of order, and the items
filtered to right sides read `x, y, z` — not `R`'s original order `z, x, y`. -/
theorem diff_coverage_counterexample :
    (diff [['x'], ['y'], ['z']] [['z'], ['x'], ['y']] (some ((4 : ℚ) / 5))).map
        (fun r => r.items.filterMap (fun x => x.rightText)) ≠
      Except.ok [['z'], ['x'], ['y']] := by decide

/-- Witness for C1 at a concrete valid threshold. -/
theorem diff_coverage_witness :
    ∃ res, diff [['a']] [['a'], ['b']] (some ((4 : ℚ) / 5)) = Except.ok res ∧
      res.items.filterMap (fun x => x.leftText) = [['a']] ∧
      (res.items.filterMap (fun x => x.rightText)).Perm [['a'], ['b']] :=
  diff_coverage [['a']] [['a'], ['b']] ((4 : ℚ) / 5) (by decide) (by decide)

/-- C2: the score of `diff` is the sum of the per-item similarities (0 for
items without one, each item weighted 1) divided by the total item count, and
`diff([], [])` returns exactly score 1 with no items. -/
theorem diff_score_spec :
    (∀ (L R : List (List Char)) (t : ℚ), 0 ≤ t → t ≤ 1 →
      ∃ res, diff L R (some t) = Except.ok res ∧
        (res.items ≠ [] →
          res.score = (res.items.map (fun it => it.similarity.getD 0)).sum /
            (res.items.length : ℚ)) ∧
        (res.items = [] → res.score = 1)) ∧
    diff [] [] none = Except.ok { score := 1, items := [] } := by
  constructor
  · intro L R t h0 h1
    refine ⟨diffCore L R t, diff_ok_of_valid L R t h0 h1, ?_, ?_⟩
    · intro hne
      rw [diffCore_score]
      exact scoreOf_formula _ hne
    · intro hnil
      rw [diffCore_score, hnil]
      rfl
  · decide

/-- Witness for C2 at a concrete input with one `Removed` item. -/
theorem diff_score_spec_witness :
    ∃ res, diff [['a']] [] (some ((4 : ℚ) / 5)) = Except.ok res ∧
      (res.items ≠ [] →
        res.score = (res.items.map (fun it => it.similarity.getD 0)).sum /
          (res.items.length : ℚ)) ∧
      (res.items = [] → res.score = 1) :=
  diff_score_spec.1 [['a']] [] ((4 : ℚ) / 5) (by decide) (by decide)

/-- C3: `diff` fails with `InvalidArgument` exactly when a supplied threshold
lies outside `[0,1]`; an omitted threshold behaves as the default 0.8; and
every input with a valid (or omitted) threshold produces a result. -/
theorem diff_threshold_validation :
    (∀ (L R : List (List Char)) (t : ℚ),
      diff L R (some t) = Except.error DiffError.invalidArgument ↔ (t < 0 ∨ 1 < t)) ∧
    (∀ (L R : List (List Char)), diff L R none = diff L R (some ((4 : ℚ) / 5))) ∧
    (∀ (L R : List (List Char)) (opts : Option ℚ),
      (∀ t, opts = some t → 0 ≤ t ∧ t ≤ 1) →
      ∃ res, diff L R opts = Except.ok res) := by
  refine ⟨?_, ?_, ?_⟩
  · intro L R t
    constructor
    · intro h
      by_contra hc
      rw [diff, if_neg hc] at h
      exact absurd h (by simp)
    · intro h
      rw [diff, if_pos h]
  · intro L R
    rw [diff, diff, if_neg (by norm_num)]
  · intro L R opts hvalid
    cases opts with
    | none => exact ⟨diffCore L R ((4 : ℚ) / 5), rfl⟩
    | some t =>
      obtain ⟨h0, h1⟩ := hvalid t rfl
      exact ⟨diffCore L R t, diff_ok_of_valid L R t h0 h1⟩

/-- Witness for C3: threshold 1.5 is rejected, the default matches 0.8, and a
valid threshold succeeds. -/
theorem diff_threshold_validation_witness :
    diff [] [] (some ((3 : ℚ) / 2)) = Except.error DiffError.invalidArgument ∧
      diff [] [] none = diff [] [] (some ((4 : ℚ) / 5)) ∧
      ∃ res, diff [] [['a']] (some ((1 : ℚ) / 2)) = Except.ok res := by
  refine ⟨(diff_threshold_validation.1 [] [] ((3 : ℚ) / 2)).mpr (by decide),
    diff_threshold_validation.2.1 [] [],
    diff_threshold_validation.2.2 [] [['a']] (some ((1 : ℚ) / 2)) ?_⟩
  intro t ht
  injection ht with ht
  subst ht
  constructor <;> decide

/-- C6: a matched pair of the result is classified `Moved` exactly when its
consumed right index is lower than a right index consumed by an earlier
matched pair (items filtered to those with both sides, in order); and the
reordered example `diff(["x","y","z"], ["z","x","y"])` has exactly one
`Moved` item while both inputs are fully covered. -/
theorem diff_moved_classification :
    (∀ (L R : List (List Char)) (t : ℚ), 0 ≤ t → t ≤ 1 →
      ∃ res, diff L R (some t) = Except.ok res ∧
        ∀ (pre : List DiffItem) (it : DiffItem) (post : List DiffItem),
          res.items.filter bothSided = pre ++ it :: post →
          (it.kind = DiffItemKind.Moved ↔
            ∃ j, it.rightIndex = some j ∧
              ∃ k ∈ pre.filterMap (fun x => x.rightIndex), j < k)) ∧
    ((diff [['x'], ['y'], ['z']] [['z'], ['x'], ['y']] (some ((4 : ℚ) / 5))).map
        (fun r => ((r.items.filter (fun it => it.kind = DiffItemKind.Moved)).length,
          r.items.filterMap (fun x => x.leftText),
          r.items.filterMap (fun x => x.rightText))) =
      Except.ok (1, [['x'], ['y'], ['z']], [['x'], ['y'], ['z']])) := by
  constructor
  · intro L R t h0 h1
    refine ⟨diffCore L R t, diff_ok_of_valid L R t h0 h1, ?_⟩
    intro pre it post h
    exact diffCore_moved_iff L R t pre it post h
  · decide

/-- Witness for C6's general clause at a concrete input. -/
theorem diff_moved_classification_witness :
    ∃ res, diff [['x'], ['y'], ['z']] [['z'], ['x'], ['y']] (some ((4 : ℚ) / 5)) =
        Except.ok res ∧
      ∀ (pre : List DiffItem) (it : DiffItem) (post : List DiffItem),
        res.items.filter bothSided = pre ++ it :: post →
        (it.kind = DiffItemKind.Moved ↔
          ∃ j, it.rightIndex = some j ∧
            ∃ k ∈ pre.filterMap (fun x => x.rightIndex), j < k) :=
  diff_moved_classification.1 [['x'], ['y'], ['z']] [['z'], ['x'], ['y']] ((4 : ℚ) / 5)
    (by decide) (by decide)

/-- C8: the POST /api/diff handler calls `diff` with no options — hence the
default threshold 0.8 — never fails on the diff itself, and serializes the
result's score and items unchanged, attaching only the orthogonal formats and
metadata fields alongside them. -/
theorem postDiff_passthrough :
    ∀ (docA docB : UNDocument) (metaA metaB : UNDocumentMetadata),
      ∃ r, diff docA.lines docB.lines (some ((4 : ℚ) / 5)) = Except.ok r ∧
        postDiff docA docB metaA metaB = Except.ok
          { score := r.score, items := r.items,
            formats := (docA.format, docB.format),
            metadataLeft := metaA, metadataRight := metaB } := by
  intro docA docB mA mB
  refine ⟨diffCore docA.lines docB.lines ((4 : ℚ) / 5), ?_, ?_⟩
  · rw [diff, if_neg (by norm_num)]
  · rw [postDiff, diff]
    rfl

/-- Witness for C10 at concrete inputs: the GA symbol `A/RES/77/16` and the
Security Council symbol `S/RES/2728/1`. -/
theorem extractYear_spec_witness :
    extractYear ('A' :: '/' :: 'R' :: 'E' :: 'S' :: '/' :: '7' :: '7' :: '/' :: '1' :: '6' :: []) =
        some (1945 + 77) ∧
      (parseUNSymbol ('S' :: '/' :: 'R' :: 'E' :: 'S' :: '/' ::
          (['2', '7', '2', '8'] ++ '/' :: ['1']))).session = some 0 ∧
      extractYear ('S' :: '/' :: 'R' :: 'E' :: 'S' :: '/' ::
          (['2', '7', '2', '8'] ++ '/' :: ['1'])) = some 1945 := by
  refine ⟨?_, ?_⟩
  · exact extractYear_spec.1
      ('A' :: '/' :: 'R' :: 'E' :: 'S' :: '/' :: '7' :: '7' :: '/' :: '1' :: '6' :: [])
      77 (by decide) (by decide)
  · exact extractYear_spec.2.2.2.2 ['2', '7', '2', '8'] ['1']
      (by decide) (by decide) (by decide) (by decide)

end Undifferent
